import Mathlib

/-!
Shallow embedding of the core pipeline of the shariah-companies scraper:
row extraction (`extract_company_from_row`), pagination
(`handle_pagination`), the run loop and deduplication
(`scrape_all_institutions`), classification
(`create_hierarchical_structure`), database reconciliation
(`mark_inactive_companies`), run logging (`log_scraping_activity`),
and the Arabic text normalizer (`normalize_arabic_text`).

Strings are modelled as Lean `String`s and manipulated through their
underlying character lists.  The only floats in the source are plain
decimal fractions parsed from cell text; they are modelled exactly as an
integer numerator over a power-of-ten scale (`DecimalValue`), on which
parsing and the `0 <= amount <= 100` comparison are exact.
-/

/-! ## Character and string helpers -/

/-- Whitespace predicate used by the model of Python `str.split()` /
`str.strip()`. -/
def isSpace (c : Char) : Bool := c.isWhitespace

/-- The Arabic diacritics removed by `normalize_arabic_text`
(src/src/utils/arabic_utils.py line 44), in source order. -/
def arabicDiacritics : List Char := ['َ', 'ً', 'ُ', 'ٌ', 'ِ', 'ٍ', 'ّ', 'ْ']

/-- Is `c` one of the diacritics stripped by the normalizer? -/
def isDiacritic (c : Char) : Bool := arabicDiacritics.contains c

/-- Model of Python `str.split()` (no argument): maximal runs of
non-whitespace characters, empty runs dropped. -/
def words : List Char → List (List Char)
  | [] => []
  | c :: cs =>
    if isSpace c then words cs
    else
      match cs, words cs with
      | [], _ => [[c]]
      | d :: _, ws0 =>
        if isSpace d then [c] :: ws0
        else
          match ws0 with
          | [] => [[c]]
          | w :: ws => (c :: w) :: ws

/-- Model of `' '.join(...)`. -/
def joinSpace : List (List Char) → List Char
  | [] => []
  | [w] => w
  | w :: ws => w ++ ' ' :: joinSpace ws

/-- Sequentially replacing each diacritic by the empty string amounts to
filtering them all out. -/
def removeDiacritics (l : List Char) : List Char := l.filter (fun c => !isDiacritic c)

/-- Model of Python `str.strip()`: drop whitespace from both ends. -/
def stripChars (l : List Char) : List Char :=
  ((l.dropWhile isSpace).reverse.dropWhile isSpace).reverse

/-- Character-list core of `normalize_arabic_text`
(src/src/utils/arabic_utils.py lines 37-48): collapse whitespace,
remove diacritics, strip. -/
def normalizeChars (l : List Char) : List Char :=
  stripChars (removeDiacritics (joinSpace (words l)))

/-- `normalize_arabic_text` (src/src/utils/arabic_utils.py):
empty (falsy) input is returned unchanged, otherwise whitespace is
collapsed with split/join, diacritics are removed, and the result is
stripped. -/
def normalize_arabic_text (s : String) : String :=
  if s.data.isEmpty then s else ⟨normalizeChars s.data⟩

/-! ## Numeric text helpers -/

/-- Non-empty and all characters decimal digits: model of Python
`str.isdigit()` on the ASCII inputs relevant here. -/
def pyIsDigit (s : String) : Bool := !s.data.isEmpty && s.data.all Char.isDigit

/-- Decimal value of a digit list (most significant first). -/
def digitsToNat (l : List Char) : Nat :=
  l.foldl (fun n c => 10 * n + (c.toNat - 48)) 0

/-- Model of Python `int(...)` on all-digit strings. -/
def strToNat (s : String) : Nat := digitsToNat s.data

/-- Model of `str(n).startswith("4")` for a natural number `n`:
the most significant decimal digit is `4`. -/
def natStartsWith4 (n : Nat) : Bool := (Nat.toDigits 10 n).head? = some '4'

/-- Does the text contain a character of the Arabic block
`'؀' <= c <= 'ۿ'`? -/
def hasArabicChar (s : String) : Bool :=
  s.data.any (fun c => 0x600 ≤ c.toNat && c.toNat ≤ 0x6FF)

/-- Model of `'.' in cell_text`. -/
def containsDot (s : String) : Bool := s.data.contains '.'

/-- Non-empty string (Python truthiness of `str`). -/
def sNonempty (s : String) : Bool := !s.data.isEmpty

/-- Does `pat` occur as a prefix of `l`? -/
def isPrefixList : List Char → List Char → Bool
  | [], _ => true
  | _ :: _, [] => false
  | a :: pat, b :: l => a = b && isPrefixList pat l

/-- Does `pat` occur as a contiguous substring of `s` (Python
`pat in s`)? -/
def containsSubstr (s pat : String) : Bool :=
  s.data.tails.any (fun t => isPrefixList pat.data t)

/-- Exact value of a parsed decimal literal: the rational
`num / 10 ^ scale`.  Python floats at the scales the scraper meets
represent these values exactly, so this is a faithful value domain for
the purification amounts. -/
structure DecimalValue where
  num : Int
  scale : Nat
deriving DecidableEq, Repr

/-- Numeric order on parsed decimal values, by cross-multiplying the
positive power-of-ten scales. -/
def decimalLe (a b : DecimalValue) : Prop :=
  a.num * ((10 ^ b.scale : Nat) : Int) ≤ b.num * ((10 ^ a.scale : Nat) : Int)

instance (a b : DecimalValue) : Decidable (decimalLe a b) :=
  inferInstanceAs (Decidable (_ ≤ _))

/-- Value of a digit run, then a decimal point, then a digit run:
model of Python `float(...)` on the plain decimal strings the scraper
meets (sign allowed, exponents not modelled). `none` models
`ValueError`. -/
def pyFloatCore (l : List Char) : Option DecimalValue :=
  let ip := l.takeWhile Char.isDigit
  let rest := l.dropWhile Char.isDigit
  match rest with
  | [] => if ip.isEmpty then none else some ⟨digitsToNat ip, 0⟩
  | '.' :: frac =>
    if frac.all Char.isDigit && (!ip.isEmpty || !frac.isEmpty) then
      some ⟨digitsToNat ip * 10 ^ frac.length + digitsToNat frac, frac.length⟩
    else none
  | _ => none

/-- Model of Python `float(cell_text)` with an optional leading sign. -/
def pyFloat (s : String) : Option DecimalValue :=
  match s.data with
  | '+' :: rest => pyFloatCore rest
  | '-' :: rest => (pyFloatCore rest).map (fun v => ⟨-v.num, v.scale⟩)
  | rest => pyFloatCore rest

/-! ## Configuration constants (config.py) -/

/-- `config.MARKETS["TASI"]`. -/
def MARKETS_TASI : String := "تاسي"

/-- `config.MARKETS["NOMU"]`. -/
def MARKETS_NOMU : String := "نمو"

/-- `config.MARKET_IDS["TASI"]`. -/
def MARKET_ID_TASI : Nat := 3

/-- `config.MARKET_IDS["NOMU"]`. -/
def MARKET_ID_NOMU : Nat := 14

/-- The sector keywords scanned for in `extract_company_from_row`
(src/src/scraper/argaam_institution_scraper.py line 207). -/
def sectorKeywords : List String := ["العقار", "البنوك", "التأمين", "الصناعة"]

/-- Does the cell text contain one of the configured sector keywords? -/
def containsSectorKeyword (s : String) : Bool :=
  sectorKeywords.any (fun kw => containsSubstr s kw)

/-! ## The canonical record (the dict built by `extract_company_from_row`) -/

/-- The company dict assembled in `extract_company_from_row`
(src/src/scraper/argaam_institution_scraper.py lines 173-184).
The wall-clock `timestamp` key is not modelled. -/
structure CompanyRecord where
  company_code : String
  company_name : String
  ticker_symbol : String
  market : String
  shariah_board : String
  sector : String
  subsector : String
  classification : String
  purification_amount : Option DecimalValue
deriving DecidableEq, Repr

/-- The initial dict of `extract_company_from_row`: empty fields,
`shariah_board` set to the institution name and `classification` to the
compliant sentinel. -/
def initCompany (institution_name : String) : CompanyRecord :=
  { company_code := ""
    company_name := ""
    ticker_symbol := ""
    market := ""
    shariah_board := institution_name
    sector := ""
    subsector := ""
    classification := "شرعي"
    purification_amount := none }

/-- One iteration of the cell loop of `extract_company_from_row`
(lines 187-208): positional code and name, then the decimal-point
heuristic for the purification amount, then the sector keyword scan.
The `elif` chain is modelled exactly, including that the purification
assignment overwrites any earlier value. -/
def extractCellStep (r : CompanyRecord) (i : Nat) (s : String) : CompanyRecord :=
  if i == 0 && pyIsDigit s then
    { r with company_code := s, ticker_symbol := s }
  else if i == 1 && sNonempty s then
    { r with company_name := normalize_arabic_text s }
  else if sNonempty s && containsDot s then
    match pyFloat s with
    | some amount => if decimalLe ⟨0, 0⟩ amount ∧ decimalLe amount ⟨100, 0⟩ then
        { r with purification_amount := some amount } else r
    | none => r
  else if sNonempty s && containsSectorKeyword s then
    { r with sector := s }
  else r

/-- The fallback scan for a 4-digit code anywhere in the row
(lines 211-218). -/
def fallbackCode (r : CompanyRecord) (cells : List String) : CompanyRecord :=
  if r.company_code = "" then
    match cells.find? (fun s => sNonempty s && pyIsDigit s && s.data.length == 4) with
    | some t => { r with company_code := t, ticker_symbol := t }
    | none => r
  else r

/-- The fallback scan for Arabic text usable as a name (lines 221-226). -/
def fallbackName (r : CompanyRecord) (cells : List String) : CompanyRecord :=
  if r.company_name = "" then
    match cells.find? (fun s => sNonempty s && hasArabicChar s) with
    | some t => { r with company_name := normalize_arabic_text t }
    | none => r
  else r

/-- Market assignment (lines 228-240): explicit market ids 3 and 14 map
to the configured market names; otherwise the market is derived from the
company code via `str(int(code)).startswith("4") or int(code) >= 9000`,
and left untouched when no code was found. -/
def assignMarket (r : CompanyRecord) (market_id : Nat) : CompanyRecord :=
  if market_id == 3 then { r with market := MARKETS_TASI }
  else if market_id == 14 then { r with market := MARKETS_NOMU }
  else if r.company_code ≠ "" then
    let code_int := strToNat r.company_code
    if natStartsWith4 code_int || decide (9000 ≤ code_int) then
      { r with market := MARKETS_NOMU }
    else
      { r with market := MARKETS_TASI }
  else r

/-- `extract_company_from_row`
(src/src/scraper/argaam_institution_scraper.py lines 170-246): builds
the record through the cell loop, the two fallback scans and the market
assignment, and returns it only when both the name and the code are
non-empty. -/
def extract_company_from_row (cells : List String) (institution_name : String)
    (market_id : Nat) : Option CompanyRecord :=
  let r0 := initCompany institution_name
  let r1 := cells.enum.foldl (fun r p => extractCellStep r p.1 p.2) r0
  let r2 := fallbackCode r1 cells
  let r3 := fallbackName r2 cells
  let r4 := assignMarket r3 market_id
  if r4.company_name ≠ "" ∧ r4.company_code ≠ "" then some r4 else none

/-! ## Pagination (`handle_pagination`) -/

/-- One table row of a rendered page: whether it contains a `th` header
cell, and the text of its `td` cells. -/
structure PageRow where
  hasHeader : Bool
  cells : List String
deriving Repr

/-- A rendered page as the navigator sees it: its table rows and whether
one of the "next page" locators resolves to an enabled control. -/
structure PageState where
  rows : List PageRow
  nextAvailable : Bool
deriving Repr

/-- Row extraction over one parsed page (lines 287-295 and 145-157):
header rows and rows without `td` cells are skipped, the rest go through
`extract_company_from_row`. -/
def extractPageCompanies (rows : List PageRow) (institution_name : String)
    (market_id : Nat) : List CompanyRecord :=
  rows.filterMap (fun row =>
    if row.hasHeader then none
    else if row.cells.isEmpty then none
    else extract_company_from_row row.cells institution_name market_id)

/-- The body of the `while current_page < max_pages` loop of
`handle_pagination` (lines 254-301), with `fuel = max_pages -
current_page` and `pos` the index of the page currently displayed.
Each iteration probes the next-page control of the current page; if it
resolves, the click advances to page `pos + 1`, whose rows are
extracted, and the loop continues.  Returns the accumulated records and
the number of page advances performed. -/
def handlePaginationLoop (pages : Nat → PageState) (institution_name : String)
    (market_id : Nat) : Nat → Nat → List CompanyRecord × Nat
  | 0, _ => ([], 0)
  | fuel + 1, pos =>
    if (pages pos).nextAvailable then
      let recs := extractPageCompanies (pages (pos + 1)).rows institution_name market_id
      let rest := handlePaginationLoop pages institution_name market_id fuel (pos + 1)
      (recs ++ rest.1, rest.2 + 1)
    else ([], 0)

/-- `max_pages` of `handle_pagination` (line 251). -/
def max_pages : Nat := 20

/-- `handle_pagination` (lines 248-303): the loop starts with
`current_page = 1` on the first page of the unit (position 0). -/
def handle_pagination (pages : Nat → PageState) (institution_name : String)
    (market_id : Nat) : List CompanyRecord × Nat :=
  handlePaginationLoop pages institution_name market_id (max_pages - 1) 0

/-! ## Deduplication and the run loop (`scrape_all_institutions`) -/

/-- The dedup key `f"{company['company_code']}_{company['shariah_board']}"`
(line 364). -/
def dedupKey (c : CompanyRecord) : String :=
  c.company_code ++ "_" ++ c.shariah_board

/-- The `unique_companies` dict loop of `scrape_all_institutions`
(lines 362-368): the first record seen for each key establishes the
entry, later records with the same key are dropped entirely; insertion
order is preserved. -/
def dedupCompanies : List CompanyRecord → List String → List CompanyRecord
  | [], _ => []
  | c :: rest, seen =>
    if seen.contains (dedupKey c) then dedupCompanies rest seen
    else c :: dedupCompanies rest (dedupKey c :: seen)

/-- Deduplication as applied to the accumulated record list. -/
def dedup_companies (cs : List CompanyRecord) : List CompanyRecord :=
  dedupCompanies cs []

/-- One step of the run seen from the `try` block of
`scrape_all_institutions`: either a crawl unit completes, contributing
its records and any unit-level error strings recorded by
`scrape_institution_companies`, or a run-level exception is raised. -/
inductive RunEvent where
  | unit (recs : List CompanyRecord) (errs : List String)
  | fatal (msg : String)
deriving Repr

/-- The run loop of `scrape_all_institutions` (lines 321-380):
units contribute records and errors in order; the first run-level
exception discards the accumulated records, appends
`"Fatal error: " ++ msg` to the error list and returns the empty list;
on normal completion the accumulated records are deduplicated. -/
def scrapeRun : List RunEvent → List CompanyRecord → List String →
    List CompanyRecord × List String
  | [], acc, errs => (dedup_companies acc, errs)
  | RunEvent.unit recs uerrs :: rest, acc, errs =>
    scrapeRun rest (acc ++ recs) (errs ++ uerrs)
  | RunEvent.fatal msg :: _, _, errs =>
    ([], errs ++ ["Fatal error: " ++ msg])

/-- `scrape_all_institutions` (lines 305-383) reduced to its unit/error
bookkeeping: the returned company list and the final
`scraping_stats["errors"]`. -/
def scrape_all_institutions (events : List RunEvent) :
    List CompanyRecord × List String :=
  scrapeRun events [] []

/-! ## Classifier (src/src/processors/classifier.py) -/

/-- `classify_by_market` (classifier.py lines 24-50): the result dict
has exactly the two configured market keys; a company whose market is
neither configured name falls back to the TASI bucket.  Modelled as the
ordered pair (TASI bucket, NOMU bucket). -/
def classify_by_market (companies : List CompanyRecord) :
    List CompanyRecord × List CompanyRecord :=
  companies.foldl
    (fun acc c =>
      if c.market = MARKETS_NOMU then (acc.1, acc.2 ++ [c])
      else (acc.1 ++ [c], acc.2))
    ([], [])

/-- Append `c` under key `k` in an insertion-ordered association list,
creating the key at the end when absent: the dict update of
`classify_by_shariah_board` (classifier.py lines 62-71). -/
def addToGroup (groups : List (String × List CompanyRecord)) (k : String)
    (c : CompanyRecord) : List (String × List CompanyRecord) :=
  match groups with
  | [] => [(k, [c])]
  | (k2, l) :: rest =>
    if k2 = k then (k2, l ++ [c]) :: rest
    else (k2, l) :: addToGroup rest k c

/-- `classify_by_shariah_board` (classifier.py lines 52-76): group by
the normalized board name, preserving insertion order. -/
def classify_by_shariah_board (companies : List CompanyRecord) :
    List (String × List CompanyRecord) :=
  companies.foldl
    (fun groups c => addToGroup groups (normalize_arabic_text c.shariah_board) c) []

/-- One market node of the hierarchical structure: its `total` and its
`by_shariah_board` groups. -/
structure MarketNode where
  total : Nat
  by_shariah_board : List (String × List CompanyRecord)
deriving DecidableEq, Repr

/-- The dict returned by `create_hierarchical_structure`
(classifier.py lines 78-103). -/
structure Hierarchy where
  total_companies : Nat
  markets : List (String × MarketNode)
deriving Repr

/-- `create_hierarchical_structure` (classifier.py lines 78-103):
`total_companies` is the input length; the two market buckets from
`classify_by_market` each carry their length as `total` and their
by-board grouping. -/
def create_hierarchical_structure (companies : List CompanyRecord) : Hierarchy :=
  let bm := classify_by_market companies
  { total_companies := companies.length
    markets :=
      [(MARKETS_TASI, ⟨bm.1.length, classify_by_shariah_board bm.1⟩),
       (MARKETS_NOMU, ⟨bm.2.length, classify_by_shariah_board bm.2⟩)] }

/-! ## Database operations (src/src/database/models.py) -/

/-- The slice of `scraping_stats` consumed by `log_scraping_activity`:
`start_time`/`end_time` as abstract instants, the record count, the
optional reconciliation counts (dict `get` with default 0), and the
error list. -/
structure RunStats where
  start_time : Nat
  end_time : Option Nat
  companies_found : Nat
  new_companies : Option Nat
  updated_companies : Option Nat
  deleted_companies : Option Nat
  errors : List String
deriving DecidableEq, Repr

/-- The `scraping_logs` row written by `log_scraping_activity`
(models.py lines 228-242). -/
structure ScrapingLogRow where
  scrape_date : Nat
  total_companies : Nat
  new_companies : Nat
  updated_companies : Nat
  deleted_companies : Nat
  duration_seconds : Nat
  status : String
  error_message : Option String
deriving DecidableEq, Repr

/-- `log_scraping_activity` (models.py lines 228-242): the status is
`'success' if not stats['errors'] else 'partial'`; the record count does
not influence it. -/
def log_scraping_activity (stats : RunStats) : ScrapingLogRow :=
  { scrape_date := stats.start_time
    total_companies := stats.companies_found
    new_companies := stats.new_companies.getD 0
    updated_companies := stats.updated_companies.getD 0
    deleted_companies := stats.deleted_companies.getD 0
    duration_seconds :=
      match stats.end_time with
      | some e => e - stats.start_time
      | none => 0
    status := if stats.errors.isEmpty then "success" else "partial"
    error_message :=
      if stats.errors.isEmpty then none
      else some (String.intercalate "; " stats.errors) }

/-- The slice of the `companies` table row relevant to
`mark_inactive_companies`: the unique code and the active flag. -/
structure StoredCompany where
  company_code : String
  is_active : Bool
deriving DecidableEq, Repr

/-- One `company_history` row as written by `add_company_history`
(models.py lines 212-226), restricted to the fields the reconciliation
claims are about. -/
structure HistoryEntry where
  company_code : String
  change_type : String
  change_details : String
deriving DecidableEq, Repr

/-- `mark_inactive_companies` (models.py lines 299-308): every active
stored company whose code is not in `active_codes` is flagged inactive
and one `'delisted'` history row is written for it; all other rows are
left untouched.  Returns the updated table and the history rows in
iteration order. -/
def mark_inactive_companies :
    List StoredCompany → List String → List StoredCompany × List HistoryEntry
  | [], _ => ([], [])
  | c :: rest, active_codes =>
    let r := mark_inactive_companies rest active_codes
    if c.is_active && !(active_codes.contains c.company_code) then
      ({ c with is_active := false } :: r.1,
       ⟨c.company_code, "delisted", "Company marked as inactive"⟩ :: r.2)
    else (c :: r.1, r.2)

/-- The purification value a single cell writes, if any: the cell must
fall through the first two positional branches, be non-empty, contain a
decimal point, parse as a float and lie in `[0, 100]`. -/
def purifCandidate (i : Nat) (s : String) : Option DecimalValue :=
  if i == 0 && pyIsDigit s then none
  else if i == 1 && sNonempty s then none
  else if sNonempty s && containsDot s then
    match pyFloat s with
    | some amount => if decimalLe ⟨0, 0⟩ amount ∧ decimalLe amount ⟨100, 0⟩ then
        some amount else none
    | none => none
  else none

/-- Total number of records stored across the groups of an
insertion-ordered grouping. -/
def groupsSize (g : List (String × List CompanyRecord)) : Nat :=
  (g.map (fun p => p.2.length)).sum

/-! ## C5: returned records have non-empty code and name -/

/-- C5: whenever `extract_company_from_row` returns a record rather than
`None`, that record's `company_code` and `company_name` are both
non-empty strings. -/
theorem extract_company_valid (cells : List String) (institution_name : String)
    (market_id : Nat) (r : CompanyRecord)
    (h : extract_company_from_row cells institution_name market_id = some r) :
    r.company_name ≠ "" ∧ r.company_code ≠ "" := by
  simp only [extract_company_from_row] at h
  split at h
  · next hc => exact (Option.some.inj h) ▸ hc
  · exact absurd h (by simp)

/-- Witness for C5 at the row `["1111", "شركة"]`. -/
theorem extract_company_valid_witness :
    extract_company_from_row ["1111", "شركة"] "الراجحي المالية" 3 =
      some ⟨"1111", "شركة", "1111", MARKETS_TASI, "الراجحي المالية", "", "",
            "شرعي", none⟩ ∧
    ("شركة" : String) ≠ "" ∧ ("1111" : String) ≠ "" := by
  have h : extract_company_from_row ["1111", "شركة"] "الراجحي المالية" 3 =
      some ⟨"1111", "شركة", "1111", MARKETS_TASI, "الراجحي المالية", "", "",
            "شرعي", none⟩ := by decide
  exact ⟨h, extract_company_valid _ _ _ _ h⟩

/-! ## C9: pagination is bounded -/

/-- The pagination loop performs at most `fuel` page advances. -/
theorem handlePaginationLoop_le (pages : Nat → PageState) (inst : String)
    (mid : Nat) : ∀ fuel pos,
    (handlePaginationLoop pages inst mid fuel pos).2 ≤ fuel := by
  intro fuel
  induction fuel with
  | zero => intro pos; simp [handlePaginationLoop]
  | succ n ih =>
    intro pos
    simp only [handlePaginationLoop]
    split
    · exact Nat.succ_le_succ (ih (pos + 1))
    · exact Nat.zero_le _

/-- With a next-page control that always resolves, the loop uses all of
its fuel. -/
theorem handlePaginationLoop_eq (pages : Nat → PageState) (inst : String)
    (mid : Nat) (hn : ∀ p, (pages p).nextAvailable = true) : ∀ fuel pos,
    (handlePaginationLoop pages inst mid fuel pos).2 = fuel := by
  intro fuel
  induction fuel with
  | zero => intro pos; simp [handlePaginationLoop]
  | succ n ih =>
    intro pos
    simp only [handlePaginationLoop, hn pos, if_true]
    exact congrArg (· + 1) (ih (pos + 1))

/-- C9: for every crawl unit the pagination loop advances to a further
page at most `max_pages - 1 = 19` times, so at most 20 pages are visited
in total, and when the next-page control stays available forever the
bound is attained rather than looping. -/
theorem pagination_bounded (pages : Nat → PageState) (inst : String) (mid : Nat) :
    (handle_pagination pages inst mid).2 ≤ 19 ∧
    1 + (handle_pagination pages inst mid).2 ≤ max_pages ∧
    ((∀ p, (pages p).nextAvailable = true) →
      (handle_pagination pages inst mid).2 = 19) := by
  refine ⟨handlePaginationLoop_le pages inst mid 19 0, ?_, fun hn => ?_⟩
  · have h := handlePaginationLoop_le pages inst mid (max_pages - 1) 0
    simp only [handle_pagination, max_pages] at h ⊢
    omega
  · exact handlePaginationLoop_eq pages inst mid hn 19 0

/-- Witness for C9 with an infinitely paginating unit. -/
theorem pagination_bounded_witness :
    (handle_pagination (fun _ => ⟨[], true⟩) "الراجحي المالية" 3).2 ≤ 19 ∧
    (handle_pagination (fun _ => ⟨[], true⟩) "الراجحي المالية" 3).2 = 19 := by
  refine ⟨(pagination_bounded (fun _ => ⟨[], true⟩) "الراجحي المالية" 3).1, ?_⟩
  exact (pagination_bounded (fun _ => ⟨[], true⟩) "الراجحي المالية" 3).2.2
    (fun p => rfl)

/-! ## C4: run-log status -/

/-- Counterexample to C4: a run that produced zero usable records and no
errors is logged with status `success`, not `failed`. -/
theorem log_zero_records_success :
    (log_scraping_activity ⟨0, some 5, 0, none, none, none, []⟩).status = "success" ∧
    (⟨0, some 5, 0, none, none, none, []⟩ : RunStats).companies_found = 0 ∧
    ("success" : String) ≠ "failed" := by
  decide

/-- C4 (amended): the run-log status depends only on the error list: a
run with a non-empty error list is recorded as `partial`, one with an
empty error list as `success` regardless of its record count, and the
status `failed` is never recorded. -/
theorem log_status_spec (stats : RunStats) :
    (stats.errors ≠ [] → (log_scraping_activity stats).status = "partial") ∧
    (stats.errors = [] → (log_scraping_activity stats).status = "success") ∧
    (log_scraping_activity stats).status ≠ "failed" := by
  have hs : (log_scraping_activity stats).status =
      if stats.errors.isEmpty then "success" else "partial" := rfl
  by_cases hE : stats.errors = []
  · have h2 : (log_scraping_activity stats).status = "success" := by
      simp [hs, hE]
    exact ⟨fun h => absurd hE h, fun _ => h2,
      by rw [h2]; exact (by decide : ("success" : String) ≠ "failed")⟩
  · have hne : stats.errors.isEmpty = false := by
      cases hE2 : stats.errors with
      | nil => exact absurd hE2 hE
      | cons a t => rfl
    have h2 : (log_scraping_activity stats).status = "partial" := by
      simp [hs, hne]
    exact ⟨fun _ => h2, fun h => absurd h hE,
      by rw [h2]; exact (by decide : ("partial" : String) ≠ "failed")⟩

/-- Witness for C4 at a run with one recorded error. -/
theorem log_status_spec_witness :
    (log_scraping_activity ⟨0, some 5, 7, none, none, none, ["Fatal error: x"]⟩).status
        = "partial" ∧
    (log_scraping_activity ⟨0, some 5, 7, none, none, none, ["Fatal error: x"]⟩).status
        ≠ "failed" :=
  ⟨(log_status_spec ⟨0, some 5, 7, none, none, none, ["Fatal error: x"]⟩).1
      (by decide),
   (log_status_spec ⟨0, some 5, 7, none, none, none, ["Fatal error: x"]⟩).2.2⟩

/-! ## C1: run-level exception handling -/

/-- Counterexample to C1: a run-level exception after a unit has already
contributed a record makes `scrape_all_institutions` return the empty
list, not the accumulated records; the error is recorded. -/
theorem scrape_fatal_drops_records :
    (scrape_all_institutions
        [RunEvent.unit [initCompany "الراجحي المالية"] [],
         RunEvent.fatal "boom"]).1 = [] ∧
    (scrape_all_institutions
        [RunEvent.unit [initCompany "الراجحي المالية"] [],
         RunEvent.fatal "boom"]).1 ≠ [initCompany "الراجحي المالية"] ∧
    (scrape_all_institutions
        [RunEvent.unit [initCompany "الراجحي المالية"] [],
         RunEvent.fatal "boom"]).2 = ["Fatal error: boom"] := by
  decide

/-- The run loop hit by a fatal event: the accumulator is dropped and
the formatted error is appended after the errors of the completed
units. -/
theorem scrapeRun_fatal (units : List (List CompanyRecord × List String))
    (msg : String) (rest : List RunEvent) :
    ∀ acc errs,
    scrapeRun (units.map (fun p => RunEvent.unit p.1 p.2) ++
        RunEvent.fatal msg :: rest) acc errs =
      ([], errs ++ (units.map Prod.snd).flatten ++ ["Fatal error: " ++ msg]) := by
  induction units with
  | nil => intro acc errs; simp [scrapeRun]
  | cons u us ih =>
    intro acc errs
    have hstep : scrapeRun
        (List.map (fun p => RunEvent.unit p.1 p.2) (u :: us) ++
          RunEvent.fatal msg :: rest) acc errs =
        scrapeRun
          (List.map (fun p => RunEvent.unit p.1 p.2) us ++
            RunEvent.fatal msg :: rest) (acc ++ u.1) (errs ++ u.2) := rfl
    rw [hstep, ih]
    simp [List.append_assoc]

/-- C1 (amended): when a run-level exception is raised after any number
of completed crawl units, `scrape_all_institutions` abandons the records
accumulated so far and returns the empty list, and the exception's
description (prefixed `Fatal error: `) is appended to the run
statistics' error list before returning. -/
theorem scrape_fatal_spec (units : List (List CompanyRecord × List String))
    (msg : String) (rest : List RunEvent) :
    scrape_all_institutions
        (units.map (fun p => RunEvent.unit p.1 p.2) ++ RunEvent.fatal msg :: rest) =
      ([], (units.map Prod.snd).flatten ++ ["Fatal error: " ++ msg]) := by
  have h := scrapeRun_fatal units msg rest [] []
  simpa [scrape_all_institutions] using h

/-! ## C2: deduplication -/

/-- Counterexample to C2: for two raw records sharing the dedup key
`(company_code, shariah_board)`, the deduplicated entry is the first
occurrence verbatim; a sector populated only in the second occurrence is
absent from the result instead of being unioned in. -/
theorem dedup_drops_later_fields :
    dedupKey ⟨"1111", "أ", "1111", MARKETS_TASI, "الراجحي المالية", "", "",
        "شرعي", none⟩ =
      dedupKey ⟨"1111", "أ", "1111", MARKETS_TASI, "الراجحي المالية", "العقار", "",
        "شرعي", none⟩ ∧
    dedup_companies
        [⟨"1111", "أ", "1111", MARKETS_TASI, "الراجحي المالية", "", "", "شرعي", none⟩,
         ⟨"1111", "أ", "1111", MARKETS_TASI, "الراجحي المالية", "العقار", "",
          "شرعي", none⟩] =
      [⟨"1111", "أ", "1111", MARKETS_TASI, "الراجحي المالية", "", "", "شرعي", none⟩] ∧
    (⟨"1111", "أ", "1111", MARKETS_TASI, "الراجحي المالية", "العقار", "",
      "شرعي", none⟩ : CompanyRecord).sector ≠ "" ∧
    (⟨"1111", "أ", "1111", MARKETS_TASI, "الراجحي المالية", "", "",
      "شرعي", none⟩ : CompanyRecord).sector = "" := by
  decide

/-- Every record surviving deduplication has a key not blocked by the
`seen` accumulator. -/
theorem mem_dedupCompanies_key (cs : List CompanyRecord) :
    ∀ seen c, c ∈ dedupCompanies cs seen → seen.contains (dedupKey c) = false := by
  induction cs with
  | nil => intro seen c hc; cases hc
  | cons x rest ih =>
    intro seen c hc
    simp only [dedupCompanies] at hc
    by_cases hx : seen.contains (dedupKey x) = true
    · rw [if_pos hx] at hc
      exact ih seen c hc
    · rw [if_neg hx] at hc
      rcases List.mem_cons.mp hc with rfl | hc2
      · exact Bool.eq_false_iff.mpr hx
      · have h2 := ih _ c hc2
        simp only [List.contains_cons, Bool.or_eq_false_iff] at h2
        exact h2.2

/-- Membership in the dedup loop, with an accumulator not blocking the
key of `c`: `c` survives exactly when it is the first record of the
input carrying its dedup key. -/
theorem mem_dedupCompanies_iff (cs : List CompanyRecord) :
    ∀ seen c, seen.contains (dedupKey c) = false →
    (c ∈ dedupCompanies cs seen ↔
      cs.find? (fun x => dedupKey x == dedupKey c) = some c) := by
  induction cs with
  | nil => intro seen c _; simp [dedupCompanies]
  | cons x rest ih =>
    intro seen c hseen
    simp only [dedupCompanies]
    by_cases hkey : dedupKey x = dedupKey c
    · have hbeq : (dedupKey x == dedupKey c) = true := by simpa using hkey
      have hfind : List.find? (fun y => dedupKey y == dedupKey c) (x :: rest) =
          some x := by simp [hbeq]
      rw [hfind]
      have hxf : seen.contains (dedupKey x) = false := by rw [hkey]; exact hseen
      rw [if_neg (by rw [hxf]; exact Bool.false_ne_true)]
      constructor
      · intro hc
        rcases List.mem_cons.mp hc with rfl | hc2
        · rfl
        · exfalso
          have h2 := mem_dedupCompanies_key rest _ c hc2
          simp only [List.contains_cons, Bool.or_eq_false_iff] at h2
          have h3 := h2.1
          rw [hkey] at h3
          simp at h3
      · intro hf
        have hxc : x = c := Option.some.inj hf
        subst hxc
        exact List.mem_cons_self _ _
    · have hbeq : (dedupKey x == dedupKey c) = false := by simpa using hkey
      have hfind : List.find? (fun y => dedupKey y == dedupKey c) (x :: rest) =
          List.find? (fun y => dedupKey y == dedupKey c) rest := by simp [hbeq]
      rw [hfind]
      have hne : (dedupKey c == dedupKey x) = false := by
        simpa using fun h => hkey h.symm
      by_cases hx : seen.contains (dedupKey x) = true
      · rw [if_pos hx]
        exact ih seen c hseen
      · rw [if_neg hx]
        have hseen2 : (dedupKey x :: seen).contains (dedupKey c) = false := by
          simp only [List.contains_cons, Bool.or_eq_false_iff]
          exact ⟨hne, hseen⟩
        constructor
        · intro hc
          rcases List.mem_cons.mp hc with rfl | hc2
          · exact absurd rfl hkey
          · exact (ih _ c hseen2).mp hc2
        · intro hf
          exact List.mem_cons_of_mem x ((ih _ c hseen2).mpr hf)

/-- C2 (amended): deduplication is strict first-seen-wins on the key
`(company_code, shariah_board)`: a record is in the deduplicated list
exactly when it is the first raw record carrying its dedup key, so
fields populated only in later occurrences of the key are dropped, not
unioned. -/
theorem dedup_first_seen_wins (cs : List CompanyRecord) (c : CompanyRecord) :
    c ∈ dedup_companies cs ↔
      cs.find? (fun x => dedupKey x == dedupKey c) = some c :=
  mem_dedupCompanies_iff cs [] c rfl

/-! ## C7: marking delisted companies inactive -/

/-- Unfolding of `mark_inactive_companies` on a company that gets
delisted. -/
theorem mark_inactive_cons_pos (x : StoredCompany) (rest : List StoredCompany)
    (act : List String) (h : (x.is_active && !(act.contains x.company_code)) = true) :
    mark_inactive_companies (x :: rest) act =
      ({ x with is_active := false } :: (mark_inactive_companies rest act).1,
       ⟨x.company_code, "delisted", "Company marked as inactive"⟩ ::
         (mark_inactive_companies rest act).2) := by
  simp only [mark_inactive_companies]
  rw [if_pos h]

/-- Unfolding of `mark_inactive_companies` on a company left untouched. -/
theorem mark_inactive_cons_neg (x : StoredCompany) (rest : List StoredCompany)
    (act : List String) (h : (x.is_active && !(act.contains x.company_code)) = false) :
    mark_inactive_companies (x :: rest) act =
      (x :: (mark_inactive_companies rest act).1,
       (mark_inactive_companies rest act).2) := by
  simp only [mark_inactive_companies]
  rw [if_neg (by rw [h]; exact Bool.false_ne_true)]

/-- Every history row written by `mark_inactive_companies` carries the
code of one of the stored companies and the change type `delisted`. -/
theorem mark_inactive_hist_code (cs : List StoredCompany) (act : List String) :
    ∀ e ∈ (mark_inactive_companies cs act).2,
      e.company_code ∈ cs.map StoredCompany.company_code ∧
        e.change_type = "delisted" := by
  induction cs with
  | nil => intro e he; cases he
  | cons x rest ih =>
    intro e he
    by_cases hcond : (x.is_active && !(act.contains x.company_code)) = true
    · rw [mark_inactive_cons_pos x rest act hcond] at he
      rcases List.mem_cons.mp he with rfl | he2
      · exact ⟨by simp, rfl⟩
      · exact ⟨List.mem_cons_of_mem _ (ih e he2).1, (ih e he2).2⟩
    · rw [mark_inactive_cons_neg x rest act (Bool.eq_false_iff.mpr hcond)] at he
      exact ⟨List.mem_cons_of_mem _ (ih e he).1, (ih e he).2⟩

/-- C7: assuming the stored codes are distinct (the database enforces a
unique constraint on `company_code`), `mark_inactive_companies` marks as
inactive exactly the previously active companies whose code is absent
from the current set, writing exactly one `delisted` history row per
such company, while a company whose code is present keeps its row, and
in particular its active flag, unchanged. -/
theorem mark_inactive_exact :
    ∀ (companies : List StoredCompany) (act : List String),
    (companies.map StoredCompany.company_code).Nodup →
    ∀ c ∈ companies,
    (c.is_active = true → act.contains c.company_code = false →
      ({ c with is_active := false } ∈ (mark_inactive_companies companies act).1 ∧
       ((mark_inactive_companies companies act).2.filter
          (fun e => e.company_code == c.company_code)).length = 1)) ∧
    (act.contains c.company_code = true →
      c ∈ (mark_inactive_companies companies act).1) := by
  intro companies
  induction companies with
  | nil => intro act _ c hc; cases hc
  | cons x rest ih =>
    intro act hnd c hc
    have hnd' : (x.company_code ∉ rest.map StoredCompany.company_code) ∧
        (rest.map StoredCompany.company_code).Nodup :=
      List.nodup_cons.mp (by simpa using hnd)
    rcases List.mem_cons.mp hc with rfl | hc2
    · constructor
      · intro hact habs
        have hcond : (c.is_active && !(act.contains c.company_code)) = true := by
          rw [hact, habs]; rfl
        rw [mark_inactive_cons_pos c rest act hcond]
        refine ⟨List.mem_cons_self _ _, ?_⟩
        have hempty : ((mark_inactive_companies rest act).2.filter
            (fun e => e.company_code == c.company_code)) = [] := by
          rw [List.filter_eq_nil_iff]
          intro e he hbeq
          have hm := (mark_inactive_hist_code rest act e he).1
          have heq : e.company_code = c.company_code := by simpa using hbeq
          rw [heq] at hm
          exact hnd'.1 hm
        rw [List.filter_cons]
        simp [hempty]
      · intro hact
        have hcond : (c.is_active && !(act.contains c.company_code)) = false := by
          rw [hact]; simp
        rw [mark_inactive_cons_neg c rest act hcond]
        exact List.mem_cons_self _ _
    · have ihc := ih act hnd'.2 c hc2
      have hccode : c.company_code ∈ rest.map StoredCompany.company_code :=
        List.mem_map_of_mem _ hc2
      have hne : (x.company_code == c.company_code) = false := by
        by_cases heq : x.company_code = c.company_code
        · rw [heq] at hnd'; exact absurd hccode hnd'.1
        · simpa using heq
      constructor
      · intro hact habs
        have h1 := ihc.1 hact habs
        by_cases hcond : (x.is_active && !(act.contains x.company_code)) = true
        · rw [mark_inactive_cons_pos x rest act hcond]
          refine ⟨List.mem_cons_of_mem _ h1.1, ?_⟩
          rw [List.filter_cons]
          simp only [hne, Bool.false_eq_true, if_false]
          exact h1.2
        · rw [mark_inactive_cons_neg x rest act (Bool.eq_false_iff.mpr hcond)]
          exact ⟨List.mem_cons_of_mem _ h1.1, h1.2⟩
      · intro hact
        have h2 := ihc.2 hact
        by_cases hcond : (x.is_active && !(act.contains x.company_code)) = true
        · rw [mark_inactive_cons_pos x rest act hcond]
          exact List.mem_cons_of_mem _ h2
        · rw [mark_inactive_cons_neg x rest act (Bool.eq_false_iff.mpr hcond)]
          exact List.mem_cons_of_mem _ h2

/-- Witness for C7: removing the previously active code `"1111"` from
the current set marks it inactive with exactly one `delisted` row, while
`"2222"` keeps its row. -/
theorem mark_inactive_exact_witness :
    ((⟨"1111", false⟩ : StoredCompany) ∈
      (mark_inactive_companies [⟨"1111", true⟩, ⟨"2222", true⟩] ["2222"]).1 ∧
     ((mark_inactive_companies [⟨"1111", true⟩, ⟨"2222", true⟩] ["2222"]).2.filter
        (fun e => e.company_code == "1111")).length = 1) ∧
    (⟨"2222", true⟩ : StoredCompany) ∈
      (mark_inactive_companies [⟨"1111", true⟩, ⟨"2222", true⟩] ["2222"]).1 :=
  ⟨(mark_inactive_exact [⟨"1111", true⟩, ⟨"2222", true⟩] ["2222"] (by decide)
      ⟨"1111", true⟩ (by decide)).1 rfl (by decide),
   (mark_inactive_exact [⟨"1111", true⟩, ⟨"2222", true⟩] ["2222"] (by decide)
      ⟨"2222", true⟩ (by decide)).2 (by decide)⟩

/-! ## C8: hierarchical structure totals -/

/-- Fold invariant of `classify_by_market`: every company lands in
exactly one of the two buckets. -/
theorem classify_by_market_aux :
    ∀ (cs : List CompanyRecord) (t n : List CompanyRecord),
    ((cs.foldl
        (fun acc c =>
          if c.market = MARKETS_NOMU then (acc.1, acc.2 ++ [c])
          else (acc.1 ++ [c], acc.2)) (t, n)).1.length +
      (cs.foldl
        (fun acc c =>
          if c.market = MARKETS_NOMU then (acc.1, acc.2 ++ [c])
          else (acc.1 ++ [c], acc.2)) (t, n)).2.length) =
      t.length + n.length + cs.length := by
  intro cs
  induction cs with
  | nil => intro t n; simp
  | cons c rest ih =>
    intro t n
    simp only [List.foldl_cons]
    by_cases hm : c.market = MARKETS_NOMU
    · rw [if_pos hm, ih t (n ++ [c])]
      simp only [List.length_append, List.length_cons, List.length_nil]
      omega
    · rw [if_neg hm, ih (t ++ [c]) n]
      simp only [List.length_append, List.length_cons, List.length_nil]
      omega

/-- The two market buckets partition the input by length. -/
theorem classify_by_market_length (cs : List CompanyRecord) :
    (classify_by_market cs).1.length + (classify_by_market cs).2.length =
      cs.length := by
  have := classify_by_market_aux cs [] []
  simpa [classify_by_market] using this

/-- Appending one record to a grouping grows its total size by one. -/
theorem addToGroup_size (k : String) (c : CompanyRecord) :
    ∀ g, groupsSize (addToGroup g k c) = groupsSize g + 1 := by
  intro g
  induction g with
  | nil => simp [addToGroup, groupsSize]
  | cons p rest ih =>
    rcases p with ⟨k2, l⟩
    simp only [addToGroup]
    by_cases hk : k2 = k
    · rw [if_pos hk]
      simp only [groupsSize, List.map_cons, List.sum_cons, List.length_append,
        List.length_cons, List.length_nil]
      omega
    · rw [if_neg hk]
      simp only [groupsSize, List.map_cons, List.sum_cons] at ih ⊢
      omega

/-- Fold invariant of `classify_by_shariah_board`. -/
theorem classify_by_board_aux (cs : List CompanyRecord) :
    ∀ g, groupsSize
        (cs.foldl
          (fun groups c => addToGroup groups (normalize_arabic_text c.shariah_board) c)
          g) = groupsSize g + cs.length := by
  induction cs with
  | nil => intro g; simp
  | cons c rest ih =>
    intro g
    simp only [List.foldl_cons, ih, addToGroup_size, List.length_cons]
    omega

/-- The by-board groups of a bucket hold exactly the bucket's records. -/
theorem classify_by_board_size (cs : List CompanyRecord) :
    groupsSize (classify_by_shariah_board cs) = cs.length := by
  have := classify_by_board_aux cs []
  simpa [classify_by_shariah_board, groupsSize] using this

/-- C8: in the structure produced by `create_hierarchical_structure`,
the per-market `total` fields sum to `total_companies`, and within each
market the lengths of the per-board record lists sum to that market's
`total`. -/
theorem hierarchy_totals (companies : List CompanyRecord) :
    (((create_hierarchical_structure companies).markets.map
        (fun p => p.2.total)).sum =
      (create_hierarchical_structure companies).total_companies) ∧
    ∀ p ∈ (create_hierarchical_structure companies).markets,
      (p.2.by_shariah_board.map (fun gr => gr.2.length)).sum = p.2.total := by
  constructor
  · have h := classify_by_market_length companies
    simp only [create_hierarchical_structure, List.map_cons, List.map_nil,
      List.sum_cons, List.sum_nil]
    omega
  · intro p hp
    simp only [create_hierarchical_structure, List.mem_cons, List.mem_singleton,
      List.not_mem_nil, or_false] at hp
    rcases hp with rfl | rfl
    · exact classify_by_board_size _
    · exact classify_by_board_size _

/-- Witness for C8 at the empty company list. -/
theorem hierarchy_totals_witness :
    (((create_hierarchical_structure []).markets.map
        (fun p => p.2.total)).sum =
      (create_hierarchical_structure []).total_companies) ∧
    ((⟨MARKETS_TASI, 0, []⟩ : String × MarketNode).2.by_shariah_board.map
        (fun gr => gr.2.length)).sum =
      (⟨MARKETS_TASI, 0, []⟩ : String × MarketNode).2.total :=
  ⟨(hierarchy_totals []).1, (hierarchy_totals []).2 _ (by decide)⟩

/-! ## C6: market inference from the company code -/

/-- Market assignment never changes the company code. -/
theorem assignMarket_code (q : CompanyRecord) (mid : Nat) :
    (assignMarket q mid).company_code = q.company_code := by
  simp only [assignMarket]
  split
  · rfl
  · split
    · rfl
    · split
      · split <;> rfl
      · rfl

/-- Behaviour of the code-derived market branch: with a market id that
maps to neither configured market and a non-empty code, the market is
`NOMU` exactly when the decimal representation of the code's numeric
value starts with `4` or that value is at least `9000`. -/
theorem assignMarket_spec (q : CompanyRecord) (mid : Nat) (h3 : mid ≠ 3)
    (h14 : mid ≠ 14) (hc : q.company_code ≠ "") :
    ((natStartsWith4 (strToNat q.company_code) = true ∨
        9000 ≤ strToNat q.company_code) →
      (assignMarket q mid).market = MARKETS_NOMU) ∧
    (natStartsWith4 (strToNat q.company_code) = false →
      strToNat q.company_code < 9000 →
      (assignMarket q mid).market = MARKETS_TASI) := by
  have hm3 : (mid == 3) = false := by simpa using h3
  have hm14 : (mid == 14) = false := by simpa using h14
  simp only [assignMarket, hm3, hm14, Bool.false_eq_true, if_false]
  rw [if_pos hc]
  by_cases hb : (natStartsWith4 (strToNat q.company_code) ||
      decide (9000 ≤ strToNat q.company_code)) = true
  · rw [if_pos hb]
    refine ⟨fun _ => rfl, fun hs hlt => ?_⟩
    rcases Bool.or_eq_true_iff.mp hb with h4 | hge
    · rw [hs] at h4; cases h4
    · exact absurd (of_decide_eq_true hge) (Nat.not_le.mpr hlt)
  · rw [if_neg hb]
    refine ⟨fun hdisj => ?_, fun _ _ => rfl⟩
    exfalso
    rcases hdisj with h4 | hge
    · exact hb (Bool.or_eq_true_iff.mpr (Or.inl h4))
    · exact hb (Bool.or_eq_true_iff.mpr (Or.inr (decide_eq_true hge)))

/-- C6 (amended): for a record returned with a market id mapping to
neither known market (neither 3/TASI nor 14/NOMU), the assigned market
is NOMU exactly when the decimal representation of the code's numeric
value (leading zeros stripped, as produced by `str(int(code))`) begins
with the digit 4, or that value is at or above 9000; otherwise it is
TASI. -/
theorem market_inference (cells : List String) (inst : String) (mid : Nat)
    (r : CompanyRecord) (h3 : mid ≠ 3) (h14 : mid ≠ 14)
    (h : extract_company_from_row cells inst mid = some r) :
    ((natStartsWith4 (strToNat r.company_code) = true ∨
        9000 ≤ strToNat r.company_code) →
      r.market = MARKETS_NOMU) ∧
    (natStartsWith4 (strToNat r.company_code) = false →
      strToNat r.company_code < 9000 →
      r.market = MARKETS_TASI) := by
  simp only [extract_company_from_row] at h
  split at h
  · next hcond =>
    have hr := Option.some.inj h
    subst hr
    rw [assignMarket_code]
    exact assignMarket_spec _ mid h3 h14
      (by rw [← assignMarket_code _ mid]; exact hcond.2)
  · exact absurd h (by simp)

/-- Witness for C6: the row `["4100", "Company B"]` with market id 0
gets the NOMU market. -/
theorem market_inference_witness :
    extract_company_from_row ["4100", "Company B"] "الراجحي المالية" 0 =
      some ⟨"4100", "Company B", "4100", MARKETS_NOMU, "الراجحي المالية", "", "",
            "شرعي", none⟩ ∧
    (⟨"4100", "Company B", "4100", MARKETS_NOMU, "الراجحي المالية", "", "",
      "شرعي", none⟩ : CompanyRecord).market = MARKETS_NOMU := by
  have h : extract_company_from_row ["4100", "Company B"] "الراجحي المالية" 0 =
      some ⟨"4100", "Company B", "4100", MARKETS_NOMU, "الراجحي المالية", "", "",
            "شرعي", none⟩ := by decide
  exact ⟨h, (market_inference _ _ 0 _ (by decide) (by decide) h).1
    (Or.inl (by decide))⟩

/-- Counterexample to C6 as stated: the code `"0400"` does not begin
with the digit 4 and its numeric value 400 is below 9000, yet the
record is assigned the NOMU market, because the source tests
`str(int(code)).startswith("4")` after stripping the leading zero. -/
theorem market_inference_leading_zero :
    (extract_company_from_row ["0400", "شركة"] "الراجحي المالية" 0).map
        CompanyRecord.company_code = some "0400" ∧
    ("0400" : String).data.head? ≠ some '4' ∧
    strToNat "0400" < 9000 ∧
    (extract_company_from_row ["0400", "شركة"] "الراجحي المالية" 0).map
        CompanyRecord.market = some MARKETS_NOMU ∧
    MARKETS_NOMU ≠ MARKETS_TASI := by
  decide

/-! ## C3: purification amount, last match wins -/

/-- One cell-loop step acts on the purification field exactly as its
candidate dictates: a candidate overwrites, no candidate leaves the
field alone. -/
theorem extractCellStep_purif (r : CompanyRecord) (i : Nat) (s : String) :
    (extractCellStep r i s).purification_amount =
      (purifCandidate i s).elim r.purification_amount some := by
  by_cases h1 : (i == 0 && pyIsDigit s) = true
  · simp [extractCellStep, purifCandidate, h1]
  · by_cases h2 : (i == 1 && sNonempty s) = true
    · simp [extractCellStep, purifCandidate, h1, h2]
    · by_cases h3 : (sNonempty s && containsDot s) = true
      · cases hp : pyFloat s with
        | none => simp [extractCellStep, purifCandidate, h1, h2, h3, hp]
        | some v =>
          by_cases h4 : decimalLe ⟨0, 0⟩ v ∧ decimalLe v ⟨100, 0⟩
          · simp [extractCellStep, purifCandidate, h1, h2, h3, hp, h4]
          · simp [extractCellStep, purifCandidate, h1, h2, h3, hp, h4]
      · by_cases h5 : (sNonempty s && containsSectorKeyword s) = true
        · simp [extractCellStep, purifCandidate, h1, h2, h3, h5]
        · simp [extractCellStep, purifCandidate, h1, h2, h3, h5]

/-- Distribute `findSome?` over an append. -/
theorem findSome?_append_split {α β : Type} (f : α → Option β) :
    ∀ l₁ l₂ : List α,
    (l₁ ++ l₂).findSome? f = (l₁.findSome? f).elim (l₂.findSome? f) some := by
  intro l₁
  induction l₁ with
  | nil => intro l₂; simp
  | cons a t ih =>
    intro l₂
    cases hf : f a with
    | some b => simp [List.findSome?_cons, hf]
    | none => simp [List.findSome?_cons, hf, ih]

/-- After the cell loop, the purification field holds the candidate of
the last matching cell, or the initial value when no cell matched. -/
theorem foldl_purif (l : List (Nat × String)) :
    ∀ r : CompanyRecord,
    (l.foldl (fun r p => extractCellStep r p.1 p.2) r).purification_amount =
      ((l.reverse.findSome? (fun p => purifCandidate p.1 p.2)).elim
        r.purification_amount some) := by
  induction l with
  | nil => intro r; simp
  | cons p t ih =>
    intro r
    simp only [List.foldl_cons, List.reverse_cons]
    rw [ih (extractCellStep r p.1 p.2), findSome?_append_split]
    cases hft : t.reverse.findSome? (fun q => purifCandidate q.1 q.2) with
    | some v => simp
    | none =>
      simp only [Option.elim_none]
      rw [extractCellStep_purif]
      cases hfp : purifCandidate p.1 p.2 with
      | some v => simp [List.findSome?_cons, hfp]
      | none => simp [List.findSome?_cons, hfp]

/-- The code fallback scan never touches the purification field. -/
theorem fallbackCode_purif (q : CompanyRecord) (cells : List String) :
    (fallbackCode q cells).purification_amount = q.purification_amount := by
  simp only [fallbackCode]
  split
  · split <;> rfl
  · rfl

/-- The name fallback scan never touches the purification field. -/
theorem fallbackName_purif (q : CompanyRecord) (cells : List String) :
    (fallbackName q cells).purification_amount = q.purification_amount := by
  simp only [fallbackName]
  split
  · split <;> rfl
  · rfl

/-- Market assignment never touches the purification field. -/
theorem assignMarket_purif (q : CompanyRecord) (mid : Nat) :
    (assignMarket q mid).purification_amount = q.purification_amount := by
  simp only [assignMarket]
  split
  · rfl
  · split
    · rfl
    · split
      · split <;> rfl
      · rfl

/-- C3 (amended): the extra numeric field follows last-match-wins: when
several cells contain a decimal point and parse to a value in
`[0, 100]`, the value recorded in the returned record is the one from
the latest such cell, each later matching cell overwriting the previous
value. -/
theorem purification_last_match (cells : List String) (inst : String) (mid : Nat)
    (r : CompanyRecord)
    (h : extract_company_from_row cells inst mid = some r) :
    r.purification_amount =
      cells.enum.reverse.findSome? (fun p => purifCandidate p.1 p.2) := by
  simp only [extract_company_from_row] at h
  split at h
  · next hcond =>
    have hr := Option.some.inj h
    subst hr
    rw [assignMarket_purif, fallbackName_purif, fallbackCode_purif, foldl_purif]
    cases hft : cells.enum.reverse.findSome? (fun p => purifCandidate p.1 p.2) with
    | some v => simp
    | none => simp [initCompany]
  · exact absurd h (by simp)

/-- Counterexample to C3 as stated: with two in-range decimal cells
`"1.5"` then `"2.5"`, the stored purification amount is `5/2`, the value
of the later cell, not the `3/2` of the earliest matching cell. -/
theorem purification_overwrites :
    (extract_company_from_row ["1111", "Name", "1.5", "2.5"] "الراجحي المالية" 3).map
        CompanyRecord.purification_amount = some (some ⟨25, 1⟩) ∧
    pyFloat "1.5" = some ⟨15, 1⟩ ∧
    (decimalLe ⟨0, 0⟩ ⟨15, 1⟩ ∧ decimalLe ⟨15, 1⟩ ⟨100, 0⟩) ∧
    (⟨25, 1⟩ : DecimalValue) ≠ ⟨15, 1⟩ ∧ (25 : Int) ≠ 15 := by
  decide

/-- Witness for C3 on a row with two matching decimal cells. -/
theorem purification_last_match_witness :
    extract_company_from_row ["1111", "Name", "1.5", "2.5"] "الراجحي المالية" 3 =
      some ⟨"1111", "Name", "1111", MARKETS_TASI, "الراجحي المالية", "", "",
            "شرعي", some ⟨25, 1⟩⟩ ∧
    (⟨"1111", "Name", "1111", MARKETS_TASI, "الراجحي المالية", "", "",
      "شرعي", some ⟨25, 1⟩⟩ : CompanyRecord).purification_amount =
      (["1111", "Name", "1.5", "2.5"] : List String).enum.reverse.findSome?
        (fun p => purifCandidate p.1 p.2) := by
  have h : extract_company_from_row ["1111", "Name", "1.5", "2.5"] "الراجحي المالية" 3 =
      some ⟨"1111", "Name", "1111", MARKETS_TASI, "الراجحي المالية", "", "",
            "شرعي", some ⟨25, 1⟩⟩ := by decide
  exact ⟨h, purification_last_match _ _ _ _ h⟩

/-! ## C10: the normalizer and idempotence -/

/-- Counterexample to C10: removing a whitespace-separated diacritic
leaves a double space behind, which only the next normalization pass
collapses, so `normalize_arabic_text` is not idempotent. -/
theorem normalize_not_idempotent :
    normalize_arabic_text "a ً b" = "a  b" ∧
    normalize_arabic_text "a  b" = "a b" ∧
    normalize_arabic_text (normalize_arabic_text "a ً b") ≠
      normalize_arabic_text "a ً b" := by
  decide

/-- Unfolding `words` past a leading whitespace character. -/
theorem words_cons_space (c : Char) (cs : List Char) (h : isSpace c = true) :
    words (c :: cs) = words cs := by
  simp [words, h]

/-- Unfolding `words` at a final non-whitespace character. -/
theorem words_singleton_nonspace (c : Char) (h : isSpace c = false) :
    words [c] = [[c]] := by
  simp [words, h]

/-- Unfolding `words` at a word boundary. -/
theorem words_cons_cons_space (c d : Char) (t : List Char)
    (hc : isSpace c = false) (hd : isSpace d = true) :
    words (c :: d :: t) = [c] :: words (d :: t) := by
  simp [words, hc, hd]

/-- One-step unfolding of `words` on a cons cell, leaving the recursive
call unexpanded. -/
theorem words_cons_eq (c : Char) (cs : List Char) :
    words (c :: cs) =
      if isSpace c then words cs
      else
        match cs, words cs with
        | [], _ => [[c]]
        | d :: _, ws0 =>
          if isSpace d then [c] :: ws0
          else
            match ws0 with
            | [] => [[c]]
            | w :: ws => (c :: w) :: ws := by
  rw [words.eq_def]

/-- The word list of text starting with a non-whitespace character is
non-empty. -/
theorem words_ne_nil (d : Char) (t : List Char) (hd : isSpace d = false) :
    words (d :: t) ≠ [] := by
  rw [words_cons_eq]
  cases t with
  | nil => simp [hd]
  | cons e t2 =>
    by_cases he : isSpace e = true
    · simp [hd, he]
    · rcases hws : words (e :: t2) with _ | ⟨w, ws⟩ <;>
        simp [hd, Bool.eq_false_iff.mpr he, hws]

/-- Unfolding `words` inside a word. -/
theorem words_cons_cons_nonspace (c d : Char) (t : List Char)
    (hc : isSpace c = false) (hd : isSpace d = false) :
    ∃ w ws, words (d :: t) = w :: ws ∧ words (c :: d :: t) = (c :: w) :: ws := by
  rcases hws : words (d :: t) with _ | ⟨w, ws⟩
  · exact absurd hws (words_ne_nil d t hd)
  · refine ⟨w, ws, rfl, ?_⟩
    rw [words_cons_eq c (d :: t)]
    simp [hc, hd, hws]

/-- Soundness of `words`: every word is a non-empty run of
non-whitespace characters of the input. -/
theorem words_mem_spec :
    ∀ l : List Char, ∀ w ∈ words l,
      w ≠ [] ∧ ∀ c ∈ w, isSpace c = false ∧ c ∈ l := by
  intro l
  induction l with
  | nil => intro w hw; cases hw
  | cons c cs ih =>
    intro w hw
    by_cases hc : isSpace c = true
    · rw [words_cons_space c cs hc] at hw
      have h2 := ih w hw
      exact ⟨h2.1, fun a ha =>
        ⟨(h2.2 a ha).1, List.mem_cons_of_mem _ (h2.2 a ha).2⟩⟩
    · have hcf : isSpace c = false := Bool.eq_false_iff.mpr hc
      cases cs with
      | nil =>
        rw [words_singleton_nonspace c hcf] at hw
        rcases List.mem_singleton.mp hw with rfl
        refine ⟨by simp, fun a ha => ?_⟩
        rcases List.mem_singleton.mp ha with rfl
        exact ⟨hcf, List.mem_cons_self _ _⟩
      | cons d t =>
        by_cases hd : isSpace d = true
        · rw [words_cons_cons_space c d t hcf hd] at hw
          rcases List.mem_cons.mp hw with rfl | hw2
          · refine ⟨by simp, fun a ha => ?_⟩
            rcases List.mem_singleton.mp ha with rfl
            exact ⟨hcf, List.mem_cons_self _ _⟩
          · have h2 := ih w hw2
            exact ⟨h2.1, fun a ha =>
              ⟨(h2.2 a ha).1, List.mem_cons_of_mem _ (h2.2 a ha).2⟩⟩
        · have hdf : isSpace d = false := Bool.eq_false_iff.mpr hd
          obtain ⟨w0, ws0, hws, heq⟩ := words_cons_cons_nonspace c d t hcf hdf
          rw [heq] at hw
          rcases List.mem_cons.mp hw with rfl | hw2
          · constructor
            · simp
            · intro a ha
              rcases List.mem_cons.mp ha with rfl | ha2
              · exact ⟨hcf, List.mem_cons_self _ _⟩
              · have h2 := ih w0 (by rw [hws]; exact List.mem_cons_self _ _)
                exact ⟨(h2.2 a ha2).1, List.mem_cons_of_mem _ (h2.2 a ha2).2⟩
          · have h2 := ih w (by rw [hws]; exact List.mem_cons_of_mem _ hw2)
            exact ⟨h2.1, fun a ha =>
              ⟨(h2.2 a ha).1, List.mem_cons_of_mem _ (h2.2 a ha).2⟩⟩

/-- Unfolding `joinSpace` on a singleton. -/
theorem joinSpace_single (w : List Char) : joinSpace [w] = w := rfl

/-- Unfolding `joinSpace` on two or more words. -/
theorem joinSpace_cons2 (w w2 : List Char) (ws : List (List Char)) :
    joinSpace (w :: w2 :: ws) = w ++ ' ' :: joinSpace (w2 :: ws) := rfl

/-- Splitting the space-join of a non-empty whitespace-free word from
the rest re-isolates the word. -/
theorem words_word_append :
    ∀ w : List Char, w ≠ [] → (∀ c ∈ w, isSpace c = false) →
    ∀ rest, words (w ++ ' ' :: rest) = w :: words rest := by
  intro w
  induction w with
  | nil => intro h; exact absurd rfl h
  | cons a w2 ih =>
    intro _ hns rest
    have ha : isSpace a = false := hns a (List.mem_cons_self _ _)
    cases w2 with
    | nil =>
      rw [List.cons_append, List.nil_append,
        words_cons_cons_space a ' ' rest ha (by decide),
        words_cons_space ' ' rest (by decide)]
    | cons b w3 =>
      have hb : isSpace b = false := hns b (by simp)
      have hrec := ih (by simp) (fun x hx => hns x (List.mem_cons_of_mem _ hx)) rest
      rw [List.cons_append] at hrec
      obtain ⟨w0, ws0, hws, heq⟩ :=
        words_cons_cons_nonspace a b (w3 ++ ' ' :: rest) ha hb
      rw [hrec] at hws
      obtain ⟨hw0, hws0⟩ := List.cons.inj hws
      rw [List.cons_append, List.cons_append, heq, ← hw0, ← hws0]

/-- A single non-empty whitespace-free word splits to itself. -/
theorem words_eq_single :
    ∀ w : List Char, w ≠ [] → (∀ c ∈ w, isSpace c = false) →
    words w = [w] := by
  intro w
  induction w with
  | nil => intro h; exact absurd rfl h
  | cons a w2 ih =>
    intro _ hns
    have ha : isSpace a = false := hns a (List.mem_cons_self _ _)
    cases w2 with
    | nil => exact words_singleton_nonspace a ha
    | cons b w3 =>
      have hb : isSpace b = false := hns b (by simp)
      have hrec := ih (by simp) (fun x hx => hns x (List.mem_cons_of_mem _ hx))
      obtain ⟨w0, ws0, hws, heq⟩ := words_cons_cons_nonspace a b w3 ha hb
      rw [hrec] at hws
      obtain ⟨hw0, hws0⟩ := List.cons.inj hws
      rw [heq, ← hw0, ← hws0]

/-- Round trip: splitting a space-join of non-empty whitespace-free
words gives the words back. -/
theorem words_join :
    ∀ ws : List (List Char),
    (∀ w ∈ ws, w ≠ [] ∧ ∀ c ∈ w, isSpace c = false) →
    words (joinSpace ws) = ws := by
  intro ws
  induction ws with
  | nil => intro _; rfl
  | cons w rest ih =>
    intro hgood
    cases rest with
    | nil =>
      rw [joinSpace_single]
      exact words_eq_single w (hgood w (by simp)).1
        (fun c hc => (hgood w (by simp)).2 c hc)
    | cons w2 rest2 =>
      rw [joinSpace_cons2,
        words_word_append w (hgood w (by simp)).1
          (fun c hc => (hgood w (by simp)).2 c hc) (joinSpace (w2 :: rest2)),
        ih (fun x hx => hgood x (List.mem_cons_of_mem _ hx))]

/-- Characters of a space-join come from the words or are the space. -/
theorem join_chars :
    ∀ ws : List (List Char), ∀ c ∈ joinSpace ws,
      (∃ w ∈ ws, c ∈ w) ∨ c = ' ' := by
  intro ws
  induction ws with
  | nil => intro c hc; cases hc
  | cons w rest ih =>
    intro c hc
    cases rest with
    | nil =>
      rw [joinSpace_single] at hc
      exact Or.inl ⟨w, List.mem_cons_self _ _, hc⟩
    | cons w2 rest2 =>
      rw [joinSpace_cons2] at hc
      rcases List.mem_append.mp hc with h1 | h2
      · exact Or.inl ⟨w, List.mem_cons_self _ _, h1⟩
      · rcases List.mem_cons.mp h2 with rfl | h3
        · exact Or.inr rfl
        · rcases ih c h3 with ⟨w3, hw3, hc3⟩ | rfl
          · exact Or.inl ⟨w3, List.mem_cons_of_mem _ hw3, hc3⟩
          · exact Or.inr rfl

/-- A space-join of non-empty words is non-empty. -/
theorem join_ne_nil :
    ∀ ws : List (List Char), ws ≠ [] → (∀ w ∈ ws, w ≠ []) →
    joinSpace ws ≠ [] := by
  intro ws hne hw
  cases ws with
  | nil => exact absurd rfl hne
  | cons w rest =>
    cases rest with
    | nil => rw [joinSpace_single]; exact hw w (List.mem_cons_self _ _)
    | cons w2 rest2 => simp [joinSpace_cons2]

/-- The first character of a space-join of good words is not
whitespace. -/
theorem join_head_nonspace :
    ∀ ws : List (List Char),
    (∀ w ∈ ws, w ≠ [] ∧ ∀ c ∈ w, isSpace c = false) →
    ∀ a, (joinSpace ws).head? = some a → isSpace a = false := by
  intro ws hgood a ha
  cases ws with
  | nil => simp [joinSpace] at ha
  | cons w rest =>
    have hw := hgood w (List.mem_cons_self _ _)
    cases hww : w with
    | nil => exact absurd hww hw.1
    | cons b w3 =>
      have hhead : (joinSpace (w :: rest)).head? = some b := by
        cases rest with
        | nil => rw [joinSpace_single, hww]; rfl
        | cons w2 rest2 => rw [joinSpace_cons2, hww]; rfl
      have hab := Option.some.inj (hhead.symm.trans ha)
      subst hab
      exact hw.2 b (by rw [hww]; exact List.mem_cons_self _ _)

/-- The last character of a space-join of good words is not
whitespace. -/
theorem join_last_nonspace :
    ∀ ws : List (List Char),
    (∀ w ∈ ws, w ≠ [] ∧ ∀ c ∈ w, isSpace c = false) →
    ∀ a, (joinSpace ws).getLast? = some a → isSpace a = false := by
  intro ws
  induction ws with
  | nil => intro _ a ha; simp [joinSpace] at ha
  | cons w rest ih =>
    intro hgood a ha
    cases rest with
    | nil =>
      rw [joinSpace_single] at ha
      exact (hgood w (List.mem_cons_self _ _)).2 a (List.mem_of_getLast?_eq_some ha)
    | cons w2 rest2 =>
      rw [joinSpace_cons2, List.getLast?_append] at ha
      have hjne : joinSpace (w2 :: rest2) ≠ [] :=
        join_ne_nil _ (by simp)
          (fun x hx => (hgood x (List.mem_cons_of_mem _ hx)).1)
      cases hj : joinSpace (w2 :: rest2) with
      | nil => exact absurd hj hjne
      | cons e rest3 =>
        rw [hj, List.getLast?_cons_cons] at ha
        cases hg : (e :: rest3).getLast? with
        | none =>
          rw [List.getLast?_eq_none_iff] at hg
          cases hg
        | some b =>
          rw [hg, Option.or_some] at ha
          have hab := Option.some.inj ha
          subst hab
          exact ih (fun x hx => hgood x (List.mem_cons_of_mem _ hx)) b
            (by rw [hj]; exact hg)

/-- Python `strip()` is the identity on text whose first and last
characters are not whitespace. -/
theorem stripChars_eq_self (l : List Char)
    (h1 : ∀ a, l.head? = some a → isSpace a = false)
    (h2 : ∀ a, l.getLast? = some a → isSpace a = false) :
    stripChars l = l := by
  have hdrop : l.dropWhile isSpace = l := by
    cases l with
    | nil => rfl
    | cons c t =>
      rw [List.dropWhile_cons, h1 c rfl]
      simp
  rw [stripChars, hdrop]
  cases hrev : l.reverse with
  | nil =>
    simp only [List.dropWhile_nil, List.reverse_nil]
    rw [← List.reverse_reverse l, hrev]
    rfl
  | cons b rest =>
    have hb : l.getLast? = some b := by
      rw [← List.head?_reverse, hrev]
      rfl
    rw [List.dropWhile_cons, h2 b hb]
    simp only [Bool.false_eq_true, if_false]
    rw [← hrev, List.reverse_reverse]

/-- C10 (amended): `normalize_arabic_text` is idempotent on every string
containing no Arabic diacritic characters; on strings where removing a
whitespace-separated diacritic leaves adjacent whitespace behind, a
second pass can still collapse that whitespace, so the restriction is
necessary. -/
theorem normalize_idempotent_no_diacritics (s : String)
    (h : ∀ c ∈ s.data, isDiacritic c = false) :
    normalize_arabic_text (normalize_arabic_text s) = normalize_arabic_text s := by
  by_cases hs : s.data.isEmpty = true
  · simp [normalize_arabic_text, hs]
  · have hspec := words_mem_spec s.data
    have hgood : ∀ w ∈ words s.data, w ≠ [] ∧ ∀ c ∈ w, isSpace c = false :=
      fun w hw => ⟨(hspec w hw).1, fun c hc => ((hspec w hw).2 c hc).1⟩
    have hnod : ∀ c ∈ joinSpace (words s.data), (!isDiacritic c) = true := by
      intro c hc
      rcases join_chars (words s.data) c hc with ⟨w, hw, hcw⟩ | rfl
      · have hcl := ((hspec w hw).2 c hcw).2
        simp [h c hcl]
      · decide
    have hfilter : removeDiacritics (joinSpace (words s.data)) =
        joinSpace (words s.data) := List.filter_eq_self.mpr hnod
    rcases hws : words s.data with _ | ⟨w0, ws0⟩
    · have hnc : normalizeChars s.data = [] := by
        rw [normalizeChars, hws]
        rfl
      have h1 : normalize_arabic_text s = ⟨[]⟩ := by
        simp only [normalize_arabic_text]
        rw [if_neg hs, hnc]
      rw [h1]
      rfl
    · have hwsne : words s.data ≠ [] := by rw [hws]; simp
      have hstrip : stripChars (joinSpace (words s.data)) =
          joinSpace (words s.data) :=
        stripChars_eq_self _ (join_head_nonspace _ hgood)
          (join_last_nonspace _ hgood)
      have hnc : normalizeChars s.data = joinSpace (words s.data) := by
        rw [normalizeChars, hfilter, hstrip]
      have hjne : joinSpace (words s.data) ≠ [] :=
        join_ne_nil _ hwsne (fun w hw => (hgood w hw).1)
      have h1 : normalize_arabic_text s = ⟨joinSpace (words s.data)⟩ := by
        simp only [normalize_arabic_text]
        rw [if_neg hs, hnc]
      rw [h1]
      have hie : (joinSpace (words s.data)).isEmpty = false := by
        cases hj : joinSpace (words s.data) with
        | nil => exact absurd hj hjne
        | cons x xs => rfl
      show (if (⟨joinSpace (words s.data)⟩ : String).data.isEmpty = true then
          (⟨joinSpace (words s.data)⟩ : String)
        else ⟨normalizeChars (⟨joinSpace (words s.data)⟩ : String).data⟩) =
        ⟨joinSpace (words s.data)⟩
      rw [if_neg (by rw [show (⟨joinSpace (words s.data)⟩ : String).data =
          joinSpace (words s.data) from rfl, hie]; exact Bool.false_ne_true)]
      have h2 : normalizeChars (joinSpace (words s.data)) =
          joinSpace (words s.data) := by
        rw [normalizeChars, words_join _ hgood, hfilter, hstrip]
      show (⟨normalizeChars (joinSpace (words s.data))⟩ : String) = _
      rw [h2]

/-- Witness for C10 on a diacritic-free name with doubled interior
whitespace. -/
theorem normalize_idempotent_witness :
    normalize_arabic_text (normalize_arabic_text "شركة  الاختبار") =
      normalize_arabic_text "شركة  الاختبار" :=
  normalize_idempotent_no_diacritics "شركة  الاختبار" (by decide)

/-- Witness for C1: one completed unit, then a run-level exception. -/
theorem scrape_fatal_spec_witness :
    scrape_all_institutions
        ([([initCompany "الراجحي المالية"], ["Institution x: e1"])].map
            (fun p => RunEvent.unit p.1 p.2) ++
          RunEvent.fatal "boom" :: []) =
      ([], ([([initCompany "الراجحي المالية"], ["Institution x: e1"])].map
          Prod.snd).flatten ++ ["Fatal error: " ++ "boom"]) :=
  scrape_fatal_spec [([initCompany "الراجحي المالية"], ["Institution x: e1"])]
    "boom" []

/-- Witness for C2 at a singleton record list. -/
theorem dedup_first_seen_wins_witness :
    initCompany "البلاد المالية" ∈ dedup_companies [initCompany "البلاد المالية"] ↔
      [initCompany "البلاد المالية"].find?
          (fun x => dedupKey x == dedupKey (initCompany "البلاد المالية")) =
        some (initCompany "البلاد المالية") :=
  dedup_first_seen_wins [initCompany "البلاد المالية"] (initCompany "البلاد المالية")
